import Mathlib

/-!
Verification of the Borderless plugin-core bridge (`src/plugin-core/Lua/lua.cpp`),
the shortcut list model (`OptionsDialog.cpp`), and the documented plugin API
(`doc/Plugins.txt`).

Real numbers (`double` in the source) are embedded as rationals with exact
arithmetic; C truncating casts and `fmod` are modelled explicitly.
-/

/-- Truncation toward zero of a rational, as performed by a C cast `(int)x`. -/
def rtrunc (q : ℚ) : ℤ := if q < 0 then -⌊-q⌋ else ⌊q⌋

/-- C `fmod(x, y)`: remainder after truncated division, with the sign of `x`. -/
def cfmod (x y : ℚ) : ℚ := x - y * (rtrunc (x / y) : ℚ)

/-- Embedding of `euclidean_modulo` (lua.cpp, lines 34-40): the first branch
lifts a negative argument by `y - fmod(-x, y)`, the second reduces an argument
`≥ y` by `fmod`. -/
def euclidean_modulo (x y : ℚ) : ℚ :=
  let x1 := if x < 0 then y - cfmod (-x) y else x
  if x1 ≥ y then cfmod x1 y else x1

lemma rtrunc_of_nonneg {q : ℚ} (h : 0 ≤ q) : rtrunc q = ⌊q⌋ := by
  simp [rtrunc, not_lt.mpr h]

lemma rtrunc_natCast (n : ℕ) : rtrunc (n : ℚ) = n := by
  rw [rtrunc_of_nonneg (by positivity), Int.floor_natCast]

lemma cfmod_of_nonneg {x y : ℚ} (hx : 0 ≤ x) (hy : 0 < y) :
    cfmod x y = x - y * ⌊x / y⌋ := by
  rw [cfmod, rtrunc_of_nonneg (by positivity)]

lemma cfmod_nonneg_lt (x y : ℚ) (hx : 0 ≤ x) (hy : 0 < y) :
    0 ≤ cfmod x y ∧ cfmod x y < y := by
  rw [cfmod_of_nonneg hx hy]
  constructor
  · have h1 : (⌊x / y⌋ : ℚ) ≤ x / y := Int.floor_le _
    have h2 : y * (⌊x / y⌋ : ℚ) ≤ y * (x / y) :=
      mul_le_mul_of_nonneg_left h1 hy.le
    rw [mul_div_cancel₀ _ hy.ne'] at h2
    linarith
  · have h1 : x / y < ⌊x / y⌋ + 1 := Int.lt_floor_add_one _
    have h2 : y * (x / y) < y * ((⌊x / y⌋ : ℚ) + 1) :=
      mul_lt_mul_of_pos_left h1 hy
    rw [mul_div_cancel₀ _ hy.ne'] at h2
    nlinarith

/-- On `[0, y)` the euclidean modulo is the identity. -/
lemma euclidean_modulo_eq_self {x y : ℚ} (h0 : 0 ≤ x) (h1 : x < y) :
    euclidean_modulo x y = x := by
  simp only [euclidean_modulo, if_neg (not_lt.mpr h0)]
  rw [if_neg (not_le.mpr h1)]

/-- On `(-y, 0)` the euclidean modulo adds `y`. -/
lemma euclidean_modulo_neg {x y : ℚ} (h0 : -y < x) (h1 : x < 0) (hy : 0 < y) :
    euclidean_modulo x y = y + x := by
  have hxpos : 0 ≤ -x := by linarith
  have hfl : ⌊-x / y⌋ = 0 := by
    rw [Int.floor_eq_zero_iff]
    constructor
    · positivity
    · rw [div_lt_one hy]; linarith
  have hfm : cfmod (-x) y = -x := by
    rw [cfmod_of_nonneg hxpos hy, hfl]; push_cast; ring
  simp only [euclidean_modulo, if_pos h1, hfm]
  rw [if_neg (by rw [not_le]; linarith)]
  ring

/-- On `[y, 2y)` the euclidean modulo subtracts `y`. -/
lemma euclidean_modulo_sub {x y : ℚ} (h0 : y ≤ x) (h1 : x < 2 * y) (hy : 0 < y) :
    euclidean_modulo x y = x - y := by
  have hx0 : 0 ≤ x := le_trans hy.le h0
  have hfl : ⌊x / y⌋ = 1 := by
    rw [Int.floor_eq_iff]
    constructor
    · push_cast; rw [le_div_iff₀ hy]; linarith
    · push_cast; rw [div_lt_iff₀ hy]; linarith
  simp only [euclidean_modulo, if_neg (not_lt.mpr hx0)]
  rw [if_pos (le_trans h0 (le_refl x)), cfmod_of_nonneg hx0 hy, hfl]
  push_cast; ring

/-- On `[2y, 3y)` the euclidean modulo subtracts `2y`. -/
lemma euclidean_modulo_sub_two {x y : ℚ} (h0 : 2 * y ≤ x) (h1 : x < 3 * y)
    (hy : 0 < y) : euclidean_modulo x y = x - 2 * y := by
  have hx0 : 0 ≤ x := by nlinarith
  have hfl : ⌊x / y⌋ = 2 := by
    rw [Int.floor_eq_iff]
    constructor
    · push_cast; rw [le_div_iff₀ hy]; linarith
    · push_cast; rw [div_lt_iff₀ hy]; linarith
  simp only [euclidean_modulo, if_neg (not_lt.mpr hx0)]
  rw [if_pos (by nlinarith), cfmod_of_nonneg hx0 hy, hfl]
  push_cast; ring

/-- The result of `euclidean_modulo` always lies in `[0, y)` for positive `y`. -/
lemma euclidean_modulo_mem (x y : ℚ) (hy : 0 < y) :
    0 ≤ euclidean_modulo x y ∧ euclidean_modulo x y < y := by
  by_cases hx : x < 0
  · have hfm := cfmod_nonneg_lt (-x) y (by linarith) hy
    simp only [euclidean_modulo, if_pos hx]
    by_cases hge : y - cfmod (-x) y ≥ y
    · rw [if_pos hge]
      exact cfmod_nonneg_lt _ _ (by linarith [hfm.1]) hy
    · rw [if_neg hge]
      rw [ge_iff_le, not_le] at hge
      exact ⟨by linarith [hfm.2], by linarith⟩
  · push_neg at hx
    simp only [euclidean_modulo, if_neg (not_lt.mpr hx)]
    by_cases hge : x ≥ y
    · rw [if_pos hge]
      exact cfmod_nonneg_lt _ _ hx hy
    · rw [if_neg hge]
      rw [ge_iff_le, not_le] at hge
      exact ⟨hx, hge⟩

/-- Saturation computed by `rgb_to_hsv` (lua.cpp line 182):
`sat = !max ? 0 : delta / max`. -/
def hsv_sat (mx delta : ℚ) : ℚ := if mx = 0 then 0 else delta / mx

/-- Hue computed by `rgb_to_hsv` (lua.cpp lines 184-194), on the normalized
channels `a b c` with their maximum `mx` and `delta = max - min`: zero when
`delta` or the saturation vanishes, otherwise the six-piecewise formula with
the red-is-max branch wrapped by `euclidean_modulo`, scaled by 60. -/
def hsv_hue (a b c mx delta : ℚ) : ℚ :=
  if delta = 0 ∨ hsv_sat mx delta = 0 then 0
  else
    (if mx = a then euclidean_modulo ((b - c) / delta) 6
     else if mx = b then (c - a) / delta + 2
     else (a - b) / delta + 4) * 60

/-- Embedding of the Lua primitive `rgb_to_hsv` (lua.cpp lines 151-200).
Arguments outside `[0, 255]` take the error path (no values returned,
modelled as `none`); otherwise the channels are normalized by 255 and the
triple `(hue, sat, val)` is pushed. -/
def rgb_to_hsv (r0 g0 b0 : ℚ) : Option (ℚ × ℚ × ℚ) :=
  if r0 < 0 ∨ 255 < r0 ∨ g0 < 0 ∨ 255 < g0 ∨ b0 < 0 ∨ 255 < b0 then none
  else
    let a := r0 / 255
    let b := g0 / 255
    let c := b0 / 255
    let mx := max a (max b c)
    let mn := min a (min b c)
    some (hsv_hue a b c mx (mx - mn), hsv_sat mx (mx - mn), mx)

/-- Row `values[j]` of the sector table in `hsv_to_rgb` (lua.cpp lines
239-246), selected by the sector index `j`. -/
def sector_values (c x : ℚ) (j : ℤ) : ℚ × ℚ × ℚ :=
  if j = 0 then (c, x, 0)
  else if j = 1 then (x, c, 0)
  else if j = 2 then (0, c, x)
  else if j = 3 then (0, x, c)
  else if j = 4 then (x, 0, c)
  else (c, 0, x)

/-- Sector index `j = (int)(hue / 60)` computed by `hsv_to_rgb`
(lua.cpp line 247) after the hue has been reduced by `euclidean_modulo`. -/
def hsv_sector (h0 : ℚ) : ℤ := rtrunc (euclidean_modulo h0 360 / 60)

/-- Embedding of the Lua primitive `hsv_to_rgb` (lua.cpp lines 202-255).
The hue is reduced into `[0,360)` by `euclidean_modulo`; saturation or value
outside `[0,1]` takes the error path (`none`); otherwise the chroma/x/m
reconstruction is performed and each channel is truncated by the C cast
`(int)((values[j][i] + m) * 255)`. -/
def hsv_to_rgb (h0 s v : ℚ) : Option (ℤ × ℤ × ℤ) :=
  let hue := euclidean_modulo h0 360
  if s < 0 ∨ 1 < s then none
  else if v < 0 ∨ 1 < v then none
  else
    let chroma := v * s
    let x := chroma * (1 - |euclidean_modulo (hue / 60) 2 - 1|)
    let m := v - chroma
    let t := sector_values chroma x (hsv_sector h0)
    some (rtrunc ((t.1 + m) * 255), rtrunc ((t.2.1 + m) * 255),
      rtrunc ((t.2.2 + m) * 255))

lemma hsv_to_rgb_eval (h0 s v : ℚ) (hs0 : 0 ≤ s) (hs1 : s ≤ 1)
    (hv0 : 0 ≤ v) (hv1 : v ≤ 1) :
    hsv_to_rgb h0 s v =
      some
        (rtrunc (((sector_values (v * s)
            (v * s * (1 - |euclidean_modulo (euclidean_modulo h0 360 / 60) 2 - 1|))
            (hsv_sector h0)).1 + (v - v * s)) * 255),
         rtrunc (((sector_values (v * s)
            (v * s * (1 - |euclidean_modulo (euclidean_modulo h0 360 / 60) 2 - 1|))
            (hsv_sector h0)).2.1 + (v - v * s)) * 255),
         rtrunc (((sector_values (v * s)
            (v * s * (1 - |euclidean_modulo (euclidean_modulo h0 360 / 60) 2 - 1|))
            (hsv_sector h0)).2.2 + (v - v * s)) * 255)) := by
  simp only [hsv_to_rgb]
  rw [if_neg (by push_neg; exact ⟨hs0, hs1⟩)]
  rw [if_neg (by push_neg; exact ⟨hv0, hv1⟩)]

lemma sector_values_zero (c x : ℚ) : sector_values c x 0 = (c, x, 0) := by
  simp [sector_values]

lemma sector_values_one (c x : ℚ) : sector_values c x 1 = (x, c, 0) := by
  simp [sector_values]

lemma sector_values_two (c x : ℚ) : sector_values c x 2 = (0, c, x) := by
  simp [sector_values]

lemma sector_values_three (c x : ℚ) : sector_values c x 3 = (0, x, c) := by
  simp [sector_values]

lemma sector_values_four (c x : ℚ) : sector_values c x 4 = (x, 0, c) := by
  simp [sector_values]

lemma sector_values_five (c x : ℚ) : sector_values c x 5 = (c, 0, x) := by
  simp [sector_values]

set_option maxHeartbeats 1000000 in
lemma reconstruction_exact (a b c : ℚ) (ha0 : 0 ≤ a) (ha1 : a ≤ 1)
    (hb0 : 0 ≤ b) (hb1 : b ≤ 1) (hc0 : 0 ≤ c) (hc1 : c ≤ 1) :
    hsv_to_rgb (hsv_hue a b c (max a (max b c)) (max a (max b c) - min a (min b c)))
      (hsv_sat (max a (max b c)) (max a (max b c) - min a (min b c)))
      (max a (max b c))
      = some (rtrunc (a * 255), rtrunc (b * 255), rtrunc (c * 255)) := by
  set mx := max a (max b c) with hmxdef
  set mn := min a (min b c) with hmndef
  have hax : a ≤ mx := le_max_left _ _
  have hbx : b ≤ mx := le_trans (le_max_left _ _) (le_max_right _ _)
  have hcx : c ≤ mx := le_trans (le_max_right _ _) (le_max_right _ _)
  have hna : mn ≤ a := min_le_left _ _
  have hnb : mn ≤ b := le_trans (min_le_right _ _) (min_le_left _ _)
  have hnc : mn ≤ c := le_trans (min_le_right _ _) (min_le_right _ _)
  have hmn0 : 0 ≤ mn := le_min ha0 (le_min hb0 hc0)
  have hmx1 : mx ≤ 1 := max_le ha1 (max_le hb1 hc1)
  have hmx0 : 0 ≤ mx := le_trans ha0 hax
  by_cases hd : mx - mn = 0
  · -- degenerate: all channels equal, hue = 0, sat = 0
    have hamx : a = mx := le_antisymm hax (by linarith)
    have hbmx : b = mx := le_antisymm hbx (by linarith)
    have hcmx : c = mx := le_antisymm hcx (by linarith)
    have hsat : hsv_sat mx (mx - mn) = 0 := by
      rw [hsv_sat, hd]
      split <;> simp
    have hhue : hsv_hue a b c mx (mx - mn) = 0 := by
      rw [hsv_hue, if_pos (Or.inl hd)]
    rw [hhue, hsat]
    rw [hsv_to_rgb_eval _ _ _ le_rfl zero_le_one hmx0 hmx1]
    have hE : euclidean_modulo (0:ℚ) 360 = 0 := euclidean_modulo_eq_self le_rfl (by norm_num)
    simp only [hsv_sector, hE]
    norm_num
    have hj : rtrunc (0:ℚ) = 0 := by
      rw [rtrunc_of_nonneg le_rfl, Int.floor_zero]
    rw [hj]
    simp only [sector_values, if_pos rfl]
    norm_num
    exact ⟨by rw [hamx], by rw [hbmx], by rw [hcmx]⟩
  · -- non-degenerate: delta > 0
    have hdpos : 0 < mx - mn := lt_of_le_of_ne (by linarith) (Ne.symm hd)
    have hmxpos : 0 < mx := by linarith
    have hSval : hsv_sat mx (mx - mn) = (mx - mn) / mx := by
      rw [hsv_sat, if_neg hmxpos.ne']
    have hs0 : 0 ≤ hsv_sat mx (mx - mn) := by rw [hSval]; positivity
    have hs1 : hsv_sat mx (mx - mn) ≤ 1 := by
      rw [hSval, div_le_one hmxpos]; linarith
    have hSne : hsv_sat mx (mx - mn) ≠ 0 := by
      rw [hSval]; exact div_ne_zero hd hmxpos.ne'
    have hchroma : mx * hsv_sat mx (mx - mn) = mx - mn := by
      rw [hSval, mul_div_cancel₀ _ hmxpos.ne']
    have hhueF : hsv_hue a b c mx (mx - mn) =
        (if mx = a then euclidean_modulo ((b - c) / (mx - mn)) 6
         else if mx = b then (c - a) / (mx - mn) + 2
         else (a - b) / (mx - mn) + 4) * 60 := by
      rw [hsv_hue, if_neg (by push_neg; exact ⟨hd, hSne⟩)]
    by_cases hA : mx = a
    · -- red is the maximum channel
      rw [if_pos hA] at hhueF
      have htle : (b - c) / (mx - mn) ≤ 1 := by
        rw [div_le_one hdpos]; linarith
      have htge : (-1 : ℚ) ≤ (b - c) / (mx - mn) := by
        rw [le_div_iff₀ hdpos]; linarith
      by_cases htneg : (b - c) / (mx - mn) < 0
      · -- t < 0: sector 5
        have hbc : b < c := by
          by_contra hcon
          push_neg at hcon
          exact absurd (div_nonneg (by linarith) hdpos.le) (not_le.mpr htneg)
        have hmn_eq : mn = b := by
          rw [hmndef, min_eq_left hbc.le, min_eq_right (hA ▸ hbx)]
        have hHue : hsv_hue a b c mx (mx - mn) = (6 + (b - c) / (mx - mn)) * 60 := by
          rw [hhueF, euclidean_modulo_neg (by linarith) htneg (by norm_num)]
        have hE : euclidean_modulo ((6 + (b - c) / (mx - mn)) * 60) 360 =
            (6 + (b - c) / (mx - mn)) * 60 :=
          euclidean_modulo_eq_self (by nlinarith) (by nlinarith)
        have hDiv : (6 + (b - c) / (mx - mn)) * 60 / 60 = 6 + (b - c) / (mx - mn) :=
          mul_div_cancel_right₀ _ (by norm_num)
        rw [hsv_to_rgb_eval _ _ _ hs0 hs1 hmx0 hmx1]
        set X := mx * hsv_sat mx (mx - mn) *
          (1 - |euclidean_modulo
            (euclidean_modulo (hsv_hue a b c mx (mx - mn)) 360 / 60) 2 - 1|) with hXdef
        have hXval : X = c - b := by
          rw [hXdef, hHue, hE, hDiv,
            euclidean_modulo_sub_two (by linarith) (by linarith) (by norm_num),
            show 6 + (b - c) / (mx - mn) - 2 * 2 - 1 = (b - c) / (mx - mn) + 1 from by ring,
            abs_of_nonneg (by linarith : (0:ℚ) ≤ (b - c) / (mx - mn) + 1), hchroma]
          field_simp
        have hj : hsv_sector (hsv_hue a b c mx (mx - mn)) = 5 := by
          simp only [hsv_sector]
          rw [hHue, hE, hDiv, rtrunc_of_nonneg (by linarith), Int.floor_eq_iff]
          constructor
          · push_cast; linarith
          · push_cast; linarith
        rw [hj, sector_values_five]
        dsimp only
        have e1 : mx * hsv_sat mx (mx - mn) + (mx - mx * hsv_sat mx (mx - mn)) = a := by
          rw [hchroma]; linarith
        have e2 : (0:ℚ) + (mx - mx * hsv_sat mx (mx - mn)) = b := by
          rw [hchroma]; linarith
        have e3 : X + (mx - mx * hsv_sat mx (mx - mn)) = c := by
          rw [hXval, hchroma]; linarith
        rw [e1, e2, e3]
      · push_neg at htneg
        have hcb : c ≤ b := by
          have := (le_div_iff₀ hdpos).mp htneg
          nlinarith
        have hmn_eq : mn = c := by
          rw [hmndef, min_eq_right hcb, min_eq_right (hA ▸ hcx)]
        by_cases hteq : (b - c) / (mx - mn) = 1
        · -- t = 1: sector 1
          have hbceq : b - c = mx - mn := by
            field_simp [hd] at hteq
            linarith
          have hHue : hsv_hue a b c mx (mx - mn) = 60 := by
            rw [hhueF, hteq, euclidean_modulo_eq_self (by norm_num) (by norm_num)]
            norm_num
          have hE : euclidean_modulo (60:ℚ) 360 = 60 :=
            euclidean_modulo_eq_self (by norm_num) (by norm_num)
          have hDiv : (60:ℚ) / 60 = 1 := by norm_num
          rw [hsv_to_rgb_eval _ _ _ hs0 hs1 hmx0 hmx1]
          set X := mx * hsv_sat mx (mx - mn) *
            (1 - |euclidean_modulo
              (euclidean_modulo (hsv_hue a b c mx (mx - mn)) 360 / 60) 2 - 1|) with hXdef
          have hXval : X = mx - mn := by
            rw [hXdef, hHue, hE, hDiv,
              euclidean_modulo_eq_self (by norm_num : (0:ℚ) ≤ 1) (by norm_num : (1:ℚ) < 2),
              show |(1:ℚ) - 1| = 0 from by norm_num, hchroma]
            ring
          have hj : hsv_sector (hsv_hue a b c mx (mx - mn)) = 1 := by
            simp only [hsv_sector]
            rw [hHue, hE, hDiv, rtrunc_of_nonneg (by norm_num : (0:ℚ) ≤ 1)]
            norm_num
          rw [hj, sector_values_one]
          dsimp only
          have e1 : X + (mx - mx * hsv_sat mx (mx - mn)) = a := by
            rw [hXval, hchroma]; linarith
          have e2 : mx * hsv_sat mx (mx - mn) + (mx - mx * hsv_sat mx (mx - mn)) = b := by
            rw [hchroma]; linarith
          have e3 : (0:ℚ) + (mx - mx * hsv_sat mx (mx - mn)) = c := by
            rw [hchroma]; linarith
          rw [e1, e2, e3]
        · -- 0 ≤ t < 1: sector 0
          have htlt : (b - c) / (mx - mn) < 1 := lt_of_le_of_ne htle hteq
          rw [euclidean_modulo_eq_self htneg (by linarith)] at hhueF
          rw [hsv_to_rgb_eval _ _ _ hs0 hs1 hmx0 hmx1]
          simp only [hsv_sector]
          rw [hhueF]
          have hE : euclidean_modulo ((b - c) / (mx - mn) * 60) 360 =
              (b - c) / (mx - mn) * 60 :=
            euclidean_modulo_eq_self (by positivity) (by nlinarith)
          rw [hE, mul_div_assoc, div_self (by norm_num : (60:ℚ) ≠ 0), mul_one]
          rw [euclidean_modulo_eq_self htneg (by linarith)]
          rw [abs_of_nonpos (by linarith), rtrunc_of_nonneg htneg]
          rw [show ⌊(b - c) / (mx - mn)⌋ = 0 from
            Int.floor_eq_zero_iff.mpr (Set.mem_Ico.mpr ⟨htneg, htlt⟩)]
          rw [sector_values_zero]
          dsimp only
          have e1 : mx * hsv_sat mx (mx - mn) + (mx - mx * hsv_sat mx (mx - mn)) = a := by
            rw [hchroma]; linarith
          have e2 : mx * hsv_sat mx (mx - mn) * (1 - -((b - c) / (mx - mn) - 1)) +
              (mx - mx * hsv_sat mx (mx - mn)) = b := by
            rw [hchroma]
            field_simp
            linarith
          have e3 : (0 : ℚ) + (mx - mx * hsv_sat mx (mx - mn)) = c := by
            rw [hchroma]; linarith
          rw [e1, e2, e3]
    · -- red is not the maximum
      rw [if_neg hA] at hhueF
      have halt : a < mx := lt_of_le_of_ne hax (fun h => hA h.symm)
      by_cases hB : mx = b
      · -- green is the maximum channel
        rw [if_pos hB] at hhueF
        have hule : (c - a) / (mx - mn) ≤ 1 := by
          rw [div_le_one hdpos]; linarith
        have hugt : (-1 : ℚ) < (c - a) / (mx - mn) := by
          rw [lt_div_iff₀ hdpos]; linarith
        have hHue : hsv_hue a b c mx (mx - mn) =
            ((c - a) / (mx - mn) + 2) * 60 := hhueF
        have hE : euclidean_modulo (((c - a) / (mx - mn) + 2) * 60) 360 =
            ((c - a) / (mx - mn) + 2) * 60 :=
          euclidean_modulo_eq_self (by nlinarith) (by nlinarith)
        have hDiv : ((c - a) / (mx - mn) + 2) * 60 / 60 =
            (c - a) / (mx - mn) + 2 :=
          mul_div_cancel_right₀ _ (by norm_num)
        by_cases huneg : (c - a) / (mx - mn) < 0
        · -- u < 0: sector 1
          have hca : c < a := by
            by_contra hcon
            push_neg at hcon
            exact absurd (div_nonneg (by linarith) hdpos.le) (not_le.mpr huneg)
          have hcb2 : c ≤ b := hB ▸ hcx
          have hmn_eq : mn = c := by
            rw [hmndef, min_eq_right hcb2, min_eq_right hca.le]
          rw [hsv_to_rgb_eval _ _ _ hs0 hs1 hmx0 hmx1]
          set X := mx * hsv_sat mx (mx - mn) *
            (1 - |euclidean_modulo
              (euclidean_modulo (hsv_hue a b c mx (mx - mn)) 360 / 60) 2 - 1|) with hXdef
          have hXval : X = a - c := by
            rw [hXdef, hHue, hE, hDiv,
              euclidean_modulo_eq_self (by linarith) (by linarith),
              show (c - a) / (mx - mn) + 2 - 1 = (c - a) / (mx - mn) + 1 from by ring,
              abs_of_nonneg (by linarith : (0:ℚ) ≤ (c - a) / (mx - mn) + 1), hchroma]
            field_simp
          have hj : hsv_sector (hsv_hue a b c mx (mx - mn)) = 1 := by
            simp only [hsv_sector]
            rw [hHue, hE, hDiv, rtrunc_of_nonneg (by linarith), Int.floor_eq_iff]
            constructor
            · push_cast; linarith
            · push_cast; linarith
          rw [hj, sector_values_one]
          dsimp only
          have e1 : X + (mx - mx * hsv_sat mx (mx - mn)) = a := by
            rw [hXval, hchroma]; linarith
          have e2 : mx * hsv_sat mx (mx - mn) + (mx - mx * hsv_sat mx (mx - mn)) = b := by
            rw [hchroma]; linarith
          have e3 : (0:ℚ) + (mx - mx * hsv_sat mx (mx - mn)) = c := by
            rw [hchroma]; linarith
          rw [e1, e2, e3]
        · push_neg at huneg
          have hac : a ≤ c := by
            have := (le_div_iff₀ hdpos).mp huneg
            nlinarith
          have hmn_eq : mn = a := by
            rw [hmndef, min_eq_left (le_min (hB ▸ halt).le hac)]
          by_cases hueq : (c - a) / (mx - mn) = 1
          · -- u = 1: sector 3
            have hcaeq : c - a = mx - mn := by
              field_simp [hd] at hueq
              linarith
            have hHue3 : hsv_hue a b c mx (mx - mn) = 180 := by
              rw [hHue, hueq]; norm_num
            have hE3 : euclidean_modulo (180:ℚ) 360 = 180 :=
              euclidean_modulo_eq_self (by norm_num) (by norm_num)
            have hDiv3 : (180:ℚ) / 60 = 3 := by norm_num
            rw [hsv_to_rgb_eval _ _ _ hs0 hs1 hmx0 hmx1]
            set X := mx * hsv_sat mx (mx - mn) *
              (1 - |euclidean_modulo
                (euclidean_modulo (hsv_hue a b c mx (mx - mn)) 360 / 60) 2 - 1|) with hXdef
            have hXval : X = mx - mn := by
              rw [hXdef, hHue3, hE3, hDiv3,
                euclidean_modulo_sub (by norm_num) (by norm_num) (by norm_num),
                show (3:ℚ) - 2 - 1 = 0 from by norm_num, abs_zero, hchroma]
              ring
            have hj : hsv_sector (hsv_hue a b c mx (mx - mn)) = 3 := by
              simp only [hsv_sector]
              rw [hHue3, hE3, hDiv3, rtrunc_of_nonneg (by norm_num : (0:ℚ) ≤ 3)]
              norm_num
            rw [hj, sector_values_three]
            dsimp only
            have e1 : (0:ℚ) + (mx - mx * hsv_sat mx (mx - mn)) = a := by
              rw [hchroma]; linarith
            have e2 : X + (mx - mx * hsv_sat mx (mx - mn)) = b := by
              rw [hXval, hchroma]; linarith
            have e3 : mx * hsv_sat mx (mx - mn) + (mx - mx * hsv_sat mx (mx - mn)) = c := by
              rw [hchroma]; linarith
            rw [e1, e2, e3]
          · -- 0 ≤ u < 1: sector 2
            have hult : (c - a) / (mx - mn) < 1 := lt_of_le_of_ne hule hueq
            rw [hsv_to_rgb_eval _ _ _ hs0 hs1 hmx0 hmx1]
            set X := mx * hsv_sat mx (mx - mn) *
              (1 - |euclidean_modulo
                (euclidean_modulo (hsv_hue a b c mx (mx - mn)) 360 / 60) 2 - 1|) with hXdef
            have hXval : X = c - a := by
              rw [hXdef, hHue, hE, hDiv,
                euclidean_modulo_sub (by linarith) (by linarith) (by norm_num),
                show (c - a) / (mx - mn) + 2 - 2 - 1 = (c - a) / (mx - mn) - 1 from by ring,
                abs_of_nonpos (by linarith : (c - a) / (mx - mn) - 1 ≤ 0), hchroma]
              field_simp
            have hj : hsv_sector (hsv_hue a b c mx (mx - mn)) = 2 := by
              simp only [hsv_sector]
              rw [hHue, hE, hDiv, rtrunc_of_nonneg (by linarith), Int.floor_eq_iff]
              constructor
              · push_cast; linarith
              · push_cast; linarith
            rw [hj, sector_values_two]
            dsimp only
            have e1 : (0:ℚ) + (mx - mx * hsv_sat mx (mx - mn)) = a := by
              rw [hchroma]; linarith
            have e2 : mx * hsv_sat mx (mx - mn) + (mx - mx * hsv_sat mx (mx - mn)) = b := by
              rw [hchroma]; linarith
            have e3 : X + (mx - mx * hsv_sat mx (mx - mn)) = c := by
              rw [hXval, hchroma]; linarith
            rw [e1, e2, e3]
      · -- blue is the maximum channel
        rw [if_neg hB] at hhueF
        have hC : mx = c := by
          rcases max_choice a (max b c) with h | h
          · exact absurd h.symm (fun h2 => hA h2.symm)
          · rcases max_choice b c with h2 | h2
            · rw [hmxdef, h, h2] at hB
              exact absurd rfl hB
            · rw [hmxdef, h, h2]
        have hblt : b < mx := lt_of_le_of_ne hbx (fun h => hB h.symm)
        have hwlt : (a - b) / (mx - mn) < 1 := by
          rw [div_lt_one hdpos]; linarith
        have hwgt : (-1 : ℚ) < (a - b) / (mx - mn) := by
          rw [lt_div_iff₀ hdpos]; linarith
        have hHue : hsv_hue a b c mx (mx - mn) =
            ((a - b) / (mx - mn) + 4) * 60 := hhueF
        have hE : euclidean_modulo (((a - b) / (mx - mn) + 4) * 60) 360 =
            ((a - b) / (mx - mn) + 4) * 60 :=
          euclidean_modulo_eq_self (by nlinarith) (by nlinarith)
        have hDiv : ((a - b) / (mx - mn) + 4) * 60 / 60 =
            (a - b) / (mx - mn) + 4 :=
          mul_div_cancel_right₀ _ (by norm_num)
        by_cases hwneg : (a - b) / (mx - mn) < 0
        · -- w < 0: sector 3
          have hab : a < b := by
            by_contra hcon
            push_neg at hcon
            exact absurd (div_nonneg (by linarith) hdpos.le) (not_le.mpr hwneg)
          have hmn_eq : mn = a := by
            rw [hmndef, min_eq_left (le_min hab.le (hC ▸ halt).le)]
          rw [hsv_to_rgb_eval _ _ _ hs0 hs1 hmx0 hmx1]
          set X := mx * hsv_sat mx (mx - mn) *
            (1 - |euclidean_modulo
              (euclidean_modulo (hsv_hue a b c mx (mx - mn)) 360 / 60) 2 - 1|) with hXdef
          have hXval : X = b - a := by
            rw [hXdef, hHue, hE, hDiv,
              euclidean_modulo_sub (by linarith) (by linarith) (by norm_num),
              show (a - b) / (mx - mn) + 4 - 2 - 1 = (a - b) / (mx - mn) + 1 from by ring,
              abs_of_nonneg (by linarith : (0:ℚ) ≤ (a - b) / (mx - mn) + 1), hchroma]
            field_simp
          have hj : hsv_sector (hsv_hue a b c mx (mx - mn)) = 3 := by
            simp only [hsv_sector]
            rw [hHue, hE, hDiv, rtrunc_of_nonneg (by linarith), Int.floor_eq_iff]
            constructor
            · push_cast; linarith
            · push_cast; linarith
          rw [hj, sector_values_three]
          dsimp only
          have e1 : (0:ℚ) + (mx - mx * hsv_sat mx (mx - mn)) = a := by
            rw [hchroma]; linarith
          have e2 : X + (mx - mx * hsv_sat mx (mx - mn)) = b := by
            rw [hXval, hchroma]; linarith
          have e3 : mx * hsv_sat mx (mx - mn) + (mx - mx * hsv_sat mx (mx - mn)) = c := by
            rw [hchroma]; linarith
          rw [e1, e2, e3]
        · -- 0 ≤ w < 1: sector 4
          push_neg at hwneg
          have hba : b ≤ a := by
            have := (le_div_iff₀ hdpos).mp hwneg
            nlinarith
          have hbc3 : b ≤ c := (hC ▸ hblt).le
          have hmn_eq : mn = b := by
            rw [hmndef, min_eq_left hbc3, min_eq_right hba]
          rw [hsv_to_rgb_eval _ _ _ hs0 hs1 hmx0 hmx1]
          set X := mx * hsv_sat mx (mx - mn) *
            (1 - |euclidean_modulo
              (euclidean_modulo (hsv_hue a b c mx (mx - mn)) 360 / 60) 2 - 1|) with hXdef
          have hXval : X = a - b := by
            rw [hXdef, hHue, hE, hDiv,
              euclidean_modulo_sub_two (by linarith) (by linarith) (by norm_num),
              show (a - b) / (mx - mn) + 4 - 2 * 2 - 1 = (a - b) / (mx - mn) - 1 from by ring,
              abs_of_nonpos (by linarith : (a - b) / (mx - mn) - 1 ≤ 0), hchroma]
            field_simp
          have hj : hsv_sector (hsv_hue a b c mx (mx - mn)) = 4 := by
            simp only [hsv_sector]
            rw [hHue, hE, hDiv, rtrunc_of_nonneg (by linarith), Int.floor_eq_iff]
            constructor
            · push_cast; linarith
            · push_cast; linarith
          rw [hj, sector_values_four]
          dsimp only
          have e1 : X + (mx - mx * hsv_sat mx (mx - mn)) = a := by
            rw [hXval, hchroma]; linarith
          have e2 : (0:ℚ) + (mx - mx * hsv_sat mx (mx - mn)) = b := by
            rw [hchroma]; linarith
          have e3 : mx * hsv_sat mx (mx - mn) + (mx - mx * hsv_sat mx (mx - mn)) = c := by
            rw [hchroma]; linarith
          rw [e1, e2, e3]

lemma rgb_to_hsv_eval (r0 g0 b0 : ℚ) (hr0 : 0 ≤ r0) (hr1 : r0 ≤ 255)
    (hg0 : 0 ≤ g0) (hg1 : g0 ≤ 255) (hb0 : 0 ≤ b0) (hb1 : b0 ≤ 255) :
    rgb_to_hsv r0 g0 b0 =
      some (hsv_hue (r0 / 255) (g0 / 255) (b0 / 255)
              (max (r0 / 255) (max (g0 / 255) (b0 / 255)))
              (max (r0 / 255) (max (g0 / 255) (b0 / 255)) -
                min (r0 / 255) (min (g0 / 255) (b0 / 255))),
            hsv_sat (max (r0 / 255) (max (g0 / 255) (b0 / 255)))
              (max (r0 / 255) (max (g0 / 255) (b0 / 255)) -
                min (r0 / 255) (min (g0 / 255) (b0 / 255))),
            max (r0 / 255) (max (g0 / 255) (b0 / 255))) := by
  simp only [rgb_to_hsv]
  rw [if_neg (by push_neg; exact ⟨hr0, hr1, hg0, hg1, hb0, hb1⟩)]

lemma roundtrip_exact (r g b : ℕ) (hr : r ≤ 255) (hg : g ≤ 255) (hb : b ≤ 255) :
    ∃ h s v : ℚ, rgb_to_hsv (r : ℚ) (g : ℚ) (b : ℚ) = some (h, s, v) ∧
      hsv_to_rgb h s v = some ((r : ℤ), (g : ℤ), (b : ℤ)) := by
  have hr1 : (r : ℚ) ≤ 255 := by exact_mod_cast hr
  have hg1 : (g : ℚ) ≤ 255 := by exact_mod_cast hg
  have hb1 : (b : ℚ) ≤ 255 := by exact_mod_cast hb
  refine ⟨_, _, _,
    rgb_to_hsv_eval _ _ _ (by positivity) hr1 (by positivity) hg1 (by positivity) hb1, ?_⟩
  have hrec := reconstruction_exact ((r : ℚ) / 255) ((g : ℚ) / 255) ((b : ℚ) / 255)
    (by positivity) (by rw [div_le_one (by norm_num : (0:ℚ) < 255)]; exact hr1)
    (by positivity) (by rw [div_le_one (by norm_num : (0:ℚ) < 255)]; exact hg1)
    (by positivity) (by rw [div_le_one (by norm_num : (0:ℚ) < 255)]; exact hb1)
  rw [hrec, div_mul_cancel₀ _ (by norm_num : (255:ℚ) ≠ 0),
    div_mul_cancel₀ _ (by norm_num : (255:ℚ) ≠ 0),
    div_mul_cancel₀ _ (by norm_num : (255:ℚ) ≠ 0),
    rtrunc_natCast, rtrunc_natCast, rtrunc_natCast]

/-- C2: for every `(r,g,b)` in `[0,255]^3`, composing `hsv_to_rgb` after
`rgb_to_hsv` yields a triple within `±1` of the original channels (in fact,
in exact rational arithmetic the round-trip is exact). -/
theorem rgb_hsv_roundtrip_within_one (r g b : ℕ)
    (hr : r ≤ 255) (hg : g ≤ 255) (hb : b ≤ 255) :
    ∃ (h s v : ℚ) (r2 g2 b2 : ℤ),
      rgb_to_hsv (r : ℚ) (g : ℚ) (b : ℚ) = some (h, s, v) ∧
      hsv_to_rgb h s v = some (r2, g2, b2) ∧
      |(r : ℤ) - r2| ≤ 1 ∧ |(g : ℤ) - g2| ≤ 1 ∧ |(b : ℤ) - b2| ≤ 1 := by
  obtain ⟨h, s, v, h1, h2⟩ := roundtrip_exact r g b hr hg hb
  exact ⟨h, s, v, r, g, b, h1, h2, by simp, by simp, by simp⟩

/-- Witness for C2 at the concrete input `(12, 200, 57)`. -/
theorem rgb_hsv_roundtrip_within_one_witness :
    (12 : ℕ) ≤ 255 ∧ (200 : ℕ) ≤ 255 ∧ (57 : ℕ) ≤ 255 ∧
    (∃ (h s v : ℚ) (r2 g2 b2 : ℤ),
      rgb_to_hsv ((12 : ℕ) : ℚ) ((200 : ℕ) : ℚ) ((57 : ℕ) : ℚ) = some (h, s, v) ∧
      hsv_to_rgb h s v = some (r2, g2, b2) ∧
      |((12 : ℕ) : ℤ) - r2| ≤ 1 ∧ |((200 : ℕ) : ℤ) - g2| ≤ 1 ∧
      |((57 : ℕ) : ℤ) - b2| ≤ 1) :=
  ⟨by decide, by decide, by decide,
    rgb_hsv_roundtrip_within_one 12 200 57 (by decide) (by decide) (by decide)⟩

lemma hsv_hue_mem (a b c : ℚ) :
    0 ≤ hsv_hue a b c (max a (max b c)) (max a (max b c) - min a (min b c)) ∧
    hsv_hue a b c (max a (max b c)) (max a (max b c) - min a (min b c)) < 360 := by
  set mx := max a (max b c) with hmxdef
  set mn := min a (min b c) with hmndef
  have hax : a ≤ mx := le_max_left _ _
  have hbx : b ≤ mx := le_trans (le_max_left _ _) (le_max_right _ _)
  have hcx : c ≤ mx := le_trans (le_max_right _ _) (le_max_right _ _)
  have hna : mn ≤ a := min_le_left _ _
  have hnb : mn ≤ b := le_trans (min_le_right _ _) (min_le_left _ _)
  have hnc : mn ≤ c := le_trans (min_le_right _ _) (min_le_right _ _)
  by_cases hcond : mx - mn = 0 ∨ hsv_sat mx (mx - mn) = 0
  · rw [hsv_hue, if_pos hcond]
    norm_num
  · rw [hsv_hue, if_neg hcond]
    push_neg at hcond
    have hdpos : 0 < mx - mn := lt_of_le_of_ne (by linarith) (Ne.symm hcond.1)
    split_ifs with hA hB
    · have hmem := euclidean_modulo_mem ((b - c) / (mx - mn)) 6
        (by norm_num : (0:ℚ) < 6)
      constructor
      · nlinarith [hmem.1]
      · nlinarith [hmem.2]
    · have h1 : (c - a) / (mx - mn) ≤ 1 := by rw [div_le_one hdpos]; linarith
      have h2 : (-1 : ℚ) ≤ (c - a) / (mx - mn) := by
        rw [le_div_iff₀ hdpos]; linarith
      constructor
      · nlinarith
      · nlinarith
    · have h1 : (a - b) / (mx - mn) ≤ 1 := by rw [div_le_one hdpos]; linarith
      have h2 : (-1 : ℚ) ≤ (a - b) / (mx - mn) := by
        rw [le_div_iff₀ hdpos]; linarith
      constructor
      · nlinarith
      · nlinarith

/-- C7: for channels in `[0,255]` the hue returned by `rgb_to_hsv` lies in
`[0,360)`, and equals zero whenever the maximum channel equals the minimum
channel (zero delta / zero saturation). -/
theorem rgb_to_hsv_hue_in_range (r0 g0 b0 : ℚ)
    (hr0 : 0 ≤ r0) (hr1 : r0 ≤ 255) (hg0 : 0 ≤ g0) (hg1 : g0 ≤ 255)
    (hb0 : 0 ≤ b0) (hb1 : b0 ≤ 255) :
    ∃ h s v : ℚ, rgb_to_hsv r0 g0 b0 = some (h, s, v) ∧
      0 ≤ h ∧ h < 360 ∧
      (max r0 (max g0 b0) = min r0 (min g0 b0) → h = 0) := by
  refine ⟨_, _, _,
    rgb_to_hsv_eval _ _ _ hr0 hr1 hg0 hg1 hb0 hb1, ?_, ?_, ?_⟩
  · exact (hsv_hue_mem _ _ _).1
  · exact (hsv_hue_mem _ _ _).2
  · intro hmm
    have h255 : (0:ℚ) ≤ 255 := by norm_num
    have hmax : max (r0 / 255) (max (g0 / 255) (b0 / 255)) =
        max r0 (max g0 b0) / 255 := by
      rw [max_div_div_right h255 g0 b0, max_div_div_right h255 r0 (max g0 b0)]
    have hmin : min (r0 / 255) (min (g0 / 255) (b0 / 255)) =
        min r0 (min g0 b0) / 255 := by
      rw [min_div_div_right h255 g0 b0, min_div_div_right h255 r0 (min g0 b0)]
    have hdz : max (r0 / 255) (max (g0 / 255) (b0 / 255)) -
        min (r0 / 255) (min (g0 / 255) (b0 / 255)) = 0 := by
      rw [hmax, hmin, hmm]
      ring
    rw [hdz, hsv_hue, if_pos (Or.inl rfl)]

/-- Witness for C7 at the concrete input `(100, 30, 20)`. -/
theorem rgb_to_hsv_hue_in_range_witness :
    ∃ h s v : ℚ, rgb_to_hsv 100 30 20 = some (h, s, v) ∧
      0 ≤ h ∧ h < 360 ∧
      (max (100:ℚ) (max 30 20) = min (100:ℚ) (min 30 20) → h = 0) :=
  rgb_to_hsv_hue_in_range 100 30 20 (by norm_num) (by norm_num) (by norm_num)
    (by norm_num) (by norm_num) (by norm_num)

lemma sector_values_cases (c x : ℚ) (j : ℤ) :
    ((sector_values c x j).1 = 0 ∨ (sector_values c x j).1 = c ∨
      (sector_values c x j).1 = x) ∧
    ((sector_values c x j).2.1 = 0 ∨ (sector_values c x j).2.1 = c ∨
      (sector_values c x j).2.1 = x) ∧
    ((sector_values c x j).2.2 = 0 ∨ (sector_values c x j).2.2 = c ∨
      (sector_values c x j).2.2 = x) := by
  rw [sector_values]
  split_ifs <;> simp

/-- C8: whenever saturation and value lie in `[0,1]`, `hsv_to_rgb` succeeds:
the sector index obtained by integer division of the reduced hue by 60 lies
in `{0,...,5}` (so the assertion `j >= 0 && j < 6` cannot fail) and each
returned channel is an integer in `[0,255]`; when saturation or value lies
outside `[0,1]` the error branch is taken and no channels are returned. -/
theorem hsv_to_rgb_sector_safe (h0 s v : ℚ) :
    (0 ≤ s → s ≤ 1 → 0 ≤ v → v ≤ 1 →
      (0 ≤ hsv_sector h0 ∧ hsv_sector h0 < 6) ∧
      ∃ r g b : ℤ, hsv_to_rgb h0 s v = some (r, g, b) ∧
        0 ≤ r ∧ r ≤ 255 ∧ 0 ≤ g ∧ g ≤ 255 ∧ 0 ≤ b ∧ b ≤ 255) ∧
    (s < 0 ∨ 1 < s ∨ v < 0 ∨ 1 < v → hsv_to_rgb h0 s v = none) := by
  constructor
  · intro hs0 hs1 hv0 hv1
    have hEm := euclidean_modulo_mem h0 360 (by norm_num : (0:ℚ) < 360)
    have hsec : 0 ≤ hsv_sector h0 ∧ hsv_sector h0 < 6 := by
      have hq0 : (0:ℚ) ≤ euclidean_modulo h0 360 / 60 :=
        div_nonneg hEm.1 (by norm_num)
      rw [hsv_sector, rtrunc_of_nonneg hq0]
      refine ⟨Int.floor_nonneg.mpr hq0, ?_⟩
      rw [Int.floor_lt]
      push_cast
      rw [div_lt_iff₀ (by norm_num : (0:ℚ) < 60)]
      linarith [hEm.2]
    refine ⟨hsec, ?_⟩
    rw [hsv_to_rgb_eval _ _ _ hs0 hs1 hv0 hv1]
    refine ⟨_, _, _, rfl, ?_⟩
    have hch0 : 0 ≤ v * s := mul_nonneg hv0 hs0
    have hch1 : v * s ≤ v := mul_le_of_le_one_right hv0 hs1
    have he2 := euclidean_modulo_mem
      (euclidean_modulo h0 360 / 60) 2 (by norm_num : (0:ℚ) < 2)
    have habs : |euclidean_modulo (euclidean_modulo h0 360 / 60) 2 - 1| ≤ 1 := by
      rw [abs_le]
      constructor <;> linarith [he2.1, he2.2]
    have habs0 : (0:ℚ) ≤ |euclidean_modulo (euclidean_modulo h0 360 / 60) 2 - 1| :=
      abs_nonneg _
    have hx0 : 0 ≤ v * s * (1 - |euclidean_modulo (euclidean_modulo h0 360 / 60) 2 - 1|) :=
      mul_nonneg hch0 (by linarith)
    have hx1 : v * s * (1 - |euclidean_modulo (euclidean_modulo h0 360 / 60) 2 - 1|) ≤
        v * s := by nlinarith
    have hbound : ∀ q : ℚ,
        (q = 0 ∨ q = v * s ∨
          q = v * s * (1 - |euclidean_modulo (euclidean_modulo h0 360 / 60) 2 - 1|)) →
        0 ≤ rtrunc ((q + (v - v * s)) * 255) ∧
          rtrunc ((q + (v - v * s)) * 255) ≤ 255 := by
      intro q hq
      have hq0 : 0 ≤ q := by rcases hq with h | h | h <;> rw [h] <;> linarith
      have hq1 : q ≤ v * s := by rcases hq with h | h | h <;> rw [h] <;> linarith
      have harg0 : (0:ℚ) ≤ (q + (v - v * s)) * 255 := by nlinarith
      have harg1 : (q + (v - v * s)) * 255 ≤ 255 := by nlinarith
      rw [rtrunc_of_nonneg harg0]
      refine ⟨Int.floor_nonneg.mpr harg0, ?_⟩
      calc ⌊(q + (v - v * s)) * 255⌋ ≤ ⌊(255:ℚ)⌋ := Int.floor_le_floor harg1
        _ = 255 := by norm_num
    have hc := sector_values_cases (v * s)
      (v * s * (1 - |euclidean_modulo (euclidean_modulo h0 360 / 60) 2 - 1|))
      (hsv_sector h0)
    exact ⟨(hbound _ hc.1).1, (hbound _ hc.1).2, (hbound _ hc.2.1).1,
      (hbound _ hc.2.1).2, (hbound _ hc.2.2).1, (hbound _ hc.2.2).2⟩
  · intro h
    simp only [hsv_to_rgb]
    by_cases hscond : s < 0 ∨ 1 < s
    · rw [if_pos hscond]
    · rw [if_neg hscond, if_pos (by tauto)]

/-- Witness for C8: the in-range part at `(400, 1/2, 1/2)` (a hue above 360,
which wraps) and the error part at `(0, 2, 0)` (saturation out of range). -/
theorem hsv_to_rgb_sector_safe_witness :
    ((0 ≤ hsv_sector 400 ∧ hsv_sector 400 < 6) ∧
      ∃ r g b : ℤ, hsv_to_rgb 400 (1/2) (1/2) = some (r, g, b) ∧
        0 ≤ r ∧ r ≤ 255 ∧ 0 ≤ g ∧ g ≤ 255 ∧ 0 ≤ b ∧ b ≤ 255) ∧
    hsv_to_rgb 0 2 0 = none :=
  ⟨(hsv_to_rgb_sector_safe 400 (1/2) (1/2)).1 (by norm_num) (by norm_num)
      (by norm_num) (by norm_num),
    (hsv_to_rgb_sector_safe 0 2 0).2 (Or.inr (Or.inl (by norm_num)))⟩

/-- C1 (code bug): at input `(255, 0, 0)` the code returns saturation `1` and
value `1` on the normalized `[0,1]` scale — not integers on the `0-255` scale
documented in `doc/Plugins.txt` (which promises `255` for pure red). The hue
is `0`, in `[0,360)` as documented. -/
theorem rgb_to_hsv_returns_normalized_sat_val :
    rgb_to_hsv 255 0 0 = some (0, 1, 1) ∧ (1 : ℚ) ≠ 255 := by
  constructor
  · rw [rgb_to_hsv, if_neg (by norm_num)]
    norm_num [hsv_hue, hsv_sat, euclidean_modulo, cfmod, rtrunc]
  · norm_num

/-- States of the zig-zag scan-order generator (lua.cpp lines 439-448).
`End` is the terminal state (encoded as `-1` in the source). -/
inductive ZigZagState where
  | Initial
  | RightwardsOnTop
  | DownLeft
  | DownwardsOnLeft
  | UpRight
  | DownwardsOnRight
  | RightwardsOnBottom
  | End
deriving DecidableEq, Repr

/-- The `for (int repeat = 1; repeat--;) switch (s) ...` loop of
`zig_zag_order` (lua.cpp lines 475-555). A case that performs `repeat++` and
re-dispatches is a recursive call consuming one unit of fuel; a case that
moves (or `End`) returns. Every re-dispatch chain in the source has length at
most four (`DownLeft → DownwardsOnLeft → RightwardsOnBottom → End` is the
longest), so fuel `8` is never exhausted. -/
def zigZagRun : ℕ → ℤ → ℤ → ℤ → ℤ → ZigZagState → ℤ × ℤ × ZigZagState
  | 0, x, y, _, _, s => (x, y, s)
  | n + 1, x, y, w, h, s =>
    match s with
    | .Initial => (0, 0, .RightwardsOnTop)
    | .RightwardsOnTop =>
        if x = w - 1 then zigZagRun n x y w h .DownwardsOnRight
        else (x + 1, y, .DownLeft)
    | .DownLeft =>
        if y = h - 1 then zigZagRun n x y w h .RightwardsOnBottom
        else if x = 0 then zigZagRun n x y w h .DownwardsOnLeft
        else (x - 1, y + 1, .DownLeft)
    | .DownwardsOnLeft =>
        if y = h - 1 then zigZagRun n x y w h .RightwardsOnBottom
        else (x, y + 1, .UpRight)
    | .UpRight =>
        if x = w - 1 then zigZagRun n x y w h .DownwardsOnRight
        else if y = 0 then zigZagRun n x y w h .RightwardsOnTop
        else (x + 1, y - 1, .UpRight)
    | .DownwardsOnRight =>
        if y = h - 1 then zigZagRun n x y w h .End
        else (x, y + 1, .DownLeft)
    | .RightwardsOnBottom =>
        if x = w - 1 then zigZagRun n x y w h .End
        else (x + 1, y, .UpRight)
    | .End => (x, y, .End)

/-- Embedding of the Lua primitive `zig_zag_order` (lua.cpp lines 450-560):
first the bottom-right precheck `if (atbottom && allright) s = End;`, then the
dispatch loop. -/
def zig_zag_order (x y w h : ℤ) (s : ZigZagState) : ℤ × ℤ × ZigZagState :=
  zigZagRun 8 x y w h (if y = h - 1 ∧ x = w - 1 then ZigZagState.End else s)

lemma zigZagRun_end (n : ℕ) (x y w h : ℤ) :
    zigZagRun n x y w h ZigZagState.End = (x, y, ZigZagState.End) := by
  cases n with
  | zero => rfl
  | succ n => rfl

/-- Coordinates returned by repeatedly feeding `zig_zag_order` its own output
back, collected until the returned state is `End` (the `End`-returning call
repeats the previous coordinate and is not collected). -/
def zigZagTrace (w h : ℤ) : ℕ → ℤ → ℤ → ZigZagState → List (ℤ × ℤ)
  | 0, _, _, _ => []
  | n + 1, x, y, s =>
    let r := zig_zag_order x y w h s
    if r.2.2 = ZigZagState.End then []
    else (r.1, r.2.1) :: zigZagTrace w h n r.1 r.2.1 r.2.2

/-- C6: starting from `Initial` at `(0,0)` on a 3-by-3 grid, advancing until
`End` produces exactly 9 distinct coordinates covering the whole grid with no
repeats; and from `End`, `zig_zag_order` is a no-op for every `x y w h`. -/
theorem zig_zag_order_spec :
    ((zigZagTrace 3 3 20 0 0 ZigZagState.Initial).length = 9 ∧
     (zigZagTrace 3 3 20 0 0 ZigZagState.Initial).Nodup ∧
     (∀ p : ℤ × ℤ, p ∈ zigZagTrace 3 3 20 0 0 ZigZagState.Initial ↔
       0 ≤ p.1 ∧ p.1 < 3 ∧ 0 ≤ p.2 ∧ p.2 < 3)) ∧
    ∀ x y w h : ℤ,
      zig_zag_order x y w h ZigZagState.End = (x, y, ZigZagState.End) := by
  have hl : zigZagTrace 3 3 20 0 0 ZigZagState.Initial =
      [(0,0), (1,0), (0,1), (0,2), (1,1), (2,0), (2,1), (1,2), (2,2)] := by
    decide
  refine ⟨⟨by rw [hl]; rfl, by rw [hl]; decide, ?_⟩, ?_⟩
  · rintro ⟨px, py⟩
    rw [hl]
    simp only [List.mem_cons, List.not_mem_nil, or_false, Prod.mk.injEq]
    constructor
    · intro hmem
      rcases hmem with h | h | h | h | h | h | h | h | h <;>
        · obtain ⟨rfl, rfl⟩ := h
          norm_num
    · rintro ⟨h1, h2, h3, h4⟩
      have hx : px = 0 ∨ px = 1 ∨ px = 2 := by omega
      have hy : py = 0 ∨ py = 1 ∨ py = 2 := by omega
      rcases hx with rfl | rfl | rfl <;> rcases hy with rfl | rfl | rfl <;> norm_num
  · intro x y w h
    rw [zig_zag_order, ite_self, zigZagRun_end]

/-- Embedding of `get_displayed_image` (lua.cpp lines 562-574). `cached` is
the Lua global `__current_image` (`none` when nil, as at the start of a run);
`caller` is what `interpreter->get_caller_image()` would resolve to. Returns
the value pushed to the script, the updated global, and whether the
caller-image resolution was actually performed on this call. -/
def get_displayed_image (caller : ℤ) (cached : Option ℤ) : ℤ × Option ℤ × Bool :=
  match cached with
  | some v => (v, some v, false)
  | none => (caller, some caller, true)

/-- C9: the first call resolves the caller image and caches it; every
subsequent call in the same run returns exactly the cached handle without
resolving again (even if the underlying caller image were to change). -/
theorem get_displayed_image_memoized :
    (∀ caller : ℤ, get_displayed_image caller none = (caller, some caller, true)) ∧
    (∀ caller v : ℤ, get_displayed_image caller (some v) = (v, some v, false)) ∧
    (∀ c1 c2 : ℤ,
      get_displayed_image c2 (get_displayed_image c1 none).2.1 = (c1, some c1, false)) :=
  ⟨fun _ => rfl, fun _ _ => rfl, fun _ _ => rfl⟩

/-- A Lua value pushed back to the script by a bridge primitive. -/
inductive LuaValue where
  | nil
  | boolean (b : Bool)
  | integer (n : ℤ)
  | str (s : String)
deriving DecidableEq, Repr

/-- The result envelope every interpreter/store operation returns (the
`CallResult` consumed by lua.cpp): success flag, integer results used
polymorphically per operation, and a message populated on failure. -/
structure OpResult where
  success : Bool
  results : List ℤ
  message : String

/-- Values returned to the script by `load_image` (lua.cpp lines 64-86):
the handle on success; `nil` plus the error message string on failure. -/
def load_image_result (res : OpResult) : List LuaValue :=
  if res.success then [LuaValue.integer (res.results.getD 0 0)]
  else [LuaValue.nil, LuaValue.str res.message]

/-- Values returned by `allocate_image` (lua.cpp lines 88-116): the bridge
itself rejects non-positive dimensions with `nil` plus a message; otherwise
the handle on success, or `nil` plus the store's message on failure. -/
def allocate_image_result (w h : ℤ) (res : OpResult) : List LuaValue :=
  if w ≤ 0 ∨ h ≤ 0 then
    [LuaValue.nil, LuaValue.str "Both parameters must be greater than zero."]
  else if res.success then [LuaValue.integer (res.results.getD 0 0)]
  else [LuaValue.nil, LuaValue.str res.message]

/-- Values returned by `unload_image` (lua.cpp lines 366-382): none at all,
on success and on failure alike (`return 0;` on both paths; the failure is
reported only through the host-level modal dialog). -/
def unload_image_result (_res : OpResult) : List LuaValue := []

/-- Values returned by `save_image` (lua.cpp lines 289-333): `true` on
success; a bare `false` — with no message value — on failure. -/
def save_image_result (res : OpResult) : List LuaValue :=
  if res.success then [LuaValue.boolean true] else [LuaValue.boolean false]

/-- Values returned by `get_pixel` (lua.cpp lines 384-415): the four channel
integers on success; no values on a negative coordinate or a store failure. -/
def get_pixel_result (x y : ℤ) (res : OpResult) : List LuaValue :=
  if x < 0 ∨ y < 0 then []
  else if res.success then
    (List.range 4).map fun i => LuaValue.integer (res.results.getD i 0)
  else []

/-- Values returned by `get_image_dimensions` (lua.cpp lines 417-437): width
and height on success; no values on failure. -/
def get_image_dimensions_result (res : OpResult) : List LuaValue :=
  if res.success then
    (List.range 2).map fun i => LuaValue.integer (res.results.getD i 0)
  else []

/-- Values returned by `display_in_current_window` (lua.cpp lines 576-597):
`true` on success, a bare `false` on failure. -/
def display_in_current_window_result (res : OpResult) : List LuaValue :=
  if res.success then [LuaValue.boolean true] else [LuaValue.boolean false]

/-- The script-visible failure signal the spec claims for every primitive: a
null/falsy primary return value together with an error-message string among
the returned values. An empty return list reads as `nil` (falsy) on
assignment but carries no message string. -/
def signals_failure (vs : List LuaValue) : Bool :=
  (match vs.getD 0 LuaValue.nil with
   | LuaValue.nil => true
   | LuaValue.boolean false => true
   | _ => false) &&
  vs.any fun v => match v with | LuaValue.str _ => true | _ => false

/-- C3 counterexample: on a failing store operation `get_pixel` returns no
values at all, and `save_image` returns a bare `false` — neither gives the
script an error-message string. -/
theorem store_failure_not_always_signaled :
    signals_failure (get_pixel_result 0 0 (OpResult.mk false [] "boom")) = false ∧
    signals_failure (save_image_result (OpResult.mk false [] "boom")) = false := by
  constructor <;> rfl

/-- C3 amended: on failure, `load_image` and `allocate_image` return `nil`
plus the error message; `save_image` and `display_in_current_window` return a
bare `false`; `unload_image`, `get_pixel` and `get_image_dimensions` return
no values and no message. -/
theorem store_failure_shapes (res : OpResult) (hfail : res.success = false) :
    load_image_result res = [LuaValue.nil, LuaValue.str res.message] ∧
    (∀ w h : ℤ, 0 < w → 0 < h →
      allocate_image_result w h res = [LuaValue.nil, LuaValue.str res.message]) ∧
    save_image_result res = [LuaValue.boolean false] ∧
    display_in_current_window_result res = [LuaValue.boolean false] ∧
    unload_image_result res = [] ∧
    (∀ x y : ℤ, get_pixel_result x y res = []) ∧
    get_image_dimensions_result res = [] := by
  refine ⟨?_, ?_, ?_, ?_, rfl, ?_, ?_⟩
  · simp [load_image_result, hfail]
  · intro w h hw hh
    rw [allocate_image_result, if_neg (by push_neg; omega)]
    simp [hfail]
  · simp [save_image_result, hfail]
  · simp [display_in_current_window_result, hfail]
  · intro x y
    rw [get_pixel_result]
    split_ifs with h1 h2
    · rfl
    · rw [hfail] at h2; cases h2
    · rfl
  · simp [get_image_dimensions_result, hfail]

/-- Witness for the amended C3 at a concrete failing result. -/
theorem store_failure_shapes_witness :
    load_image_result (OpResult.mk false [] "boom") =
      [LuaValue.nil, LuaValue.str "boom"] ∧
    allocate_image_result 2 2 (OpResult.mk false [] "boom") =
      [LuaValue.nil, LuaValue.str "boom"] :=
  ⟨(store_failure_shapes (OpResult.mk false [] "boom") rfl).1,
    (store_failure_shapes (OpResult.mk false [] "boom") rfl).2.1 2 2
      (by decide) (by decide)⟩

/-- The `SaveOptions` populated by the bridge (lua.cpp lines 300-320). The
defaults of the C++ `SaveOptions` declaration are outside this repository, so
the default-constructed value is passed in explicitly where needed. -/
structure SaveOptions where
  format : Option String
  compression : ℤ
deriving DecidableEq

/-- Option-table parsing performed by `save_image` (lua.cpp lines 302-320): a
string `format` field is lower-cased and stored; a numeric `compression`
field is cast to int and stored unchanged — no range check and no clamping.
`dflt` is the default-constructed `SaveOptions`. -/
def parse_save_options (fmt : Option String) (comp : Option ℤ)
    (dflt : SaveOptions) : SaveOptions :=
  { format := match fmt with
      | some s => some s.toLower
      | none => dflt.format
    compression := match comp with
      | some n => n
      | none => dflt.compression }

/-- C4 counterexample: with `{compression = 150}` the bridge stores `150` —
outside `[0,100]` — in the options forwarded to the store's save operation,
and does not fail: a successful store result still yields `true`. -/
theorem save_image_forwards_out_of_range_compression :
    (parse_save_options none (some 150) (SaveOptions.mk none 0)).compression = 150 ∧
    ¬(0 ≤ (parse_save_options none (some 150) (SaveOptions.mk none 0)).compression ∧
      (parse_save_options none (some 150) (SaveOptions.mk none 0)).compression ≤ 100) ∧
    save_image_result (OpResult.mk true [] "") = [LuaValue.boolean true] :=
  ⟨rfl, by decide, rfl⟩

/-- C4 amended: whatever compression value the options table carries, the
bridge forwards it unchanged — it neither clamps nor rejects. -/
theorem save_image_compression_unchanged (fmt : Option String) (comp : ℤ)
    (dflt : SaveOptions) :
    (parse_save_options fmt (some comp) dflt).compression = comp := rfl

/-- An image of the store: dimensions and a row-major RGBA pixel buffer. -/
structure Image where
  width : ℕ
  height : ℕ
  pixels : List (ℕ × ℕ × ℕ × ℕ)

/-- Row-major enumeration of the coordinates of a `w × h` grid: row 0 first,
columns left to right within each row. -/
def rowMajor (w h : ℕ) : List (ℕ × ℕ) :=
  (List.range h).flatMap fun y => (List.range w).map fun x => (x, y)

/-- Modelled from the spec: `LuaInterpreter::traverse`, the store operation
behind `traverse_image`, is not under `src/`; per the spec it invokes the
callback once per pixel in row-major order with 8-bit channel values and
0-based coordinates, and the bridge lambda (lua.cpp lines 134-143) pushes the
callback arguments in the order `(r,g,b,a,x,y)`. This definition produces the
argument tuples of the successive callback invocations. -/
def traverse_calls (img : Image) : List (ℕ × ℕ × ℕ × ℕ × ℕ × ℕ) :=
  (rowMajor img.width img.height).map fun p =>
    let px := img.pixels.getD (p.2 * img.width + p.1) (0, 0, 0, 0)
    (px.1, px.2.1, px.2.2.1, px.2.2.2, p.1, p.2)

/-- Modelled from the spec: `traverse_image` resolves the handle in the store
(`none` on an unknown handle — the store's `HandleNotFound`) and performs the
traversal. -/
def traverse_image (store : ℕ → Option Image) (handle : ℕ) :
    Option (List (ℕ × ℕ × ℕ × ℕ × ℕ × ℕ)) :=
  (store handle).map traverse_calls

lemma rowMajor_succ (w h : ℕ) :
    rowMajor w (h + 1) = rowMajor w h ++ (List.range w).map fun x => (x, h) := by
  rw [rowMajor, rowMajor, List.range_succ, List.flatMap_append]
  simp

lemma rowMajor_length (w h : ℕ) : (rowMajor w h).length = w * h := by
  induction h with
  | zero => rfl
  | succ n ih =>
    rw [rowMajor_succ, List.length_append, ih, List.length_map,
      List.length_range, Nat.mul_succ]

lemma rowMajor_mem (w h : ℕ) (p : ℕ × ℕ) :
    p ∈ rowMajor w h ↔ p.1 < w ∧ p.2 < h := by
  rw [rowMajor, List.mem_flatMap]
  constructor
  · rintro ⟨y, hy, hp⟩
    rw [List.mem_map] at hp
    obtain ⟨x, hx, rfl⟩ := hp
    exact ⟨List.mem_range.mp hx, List.mem_range.mp hy⟩
  · rintro ⟨h1, h2⟩
    exact ⟨p.2, List.mem_range.mpr h2,
      List.mem_map.mpr ⟨p.1, List.mem_range.mpr h1, by simp⟩⟩

lemma rowMajor_nodup (w h : ℕ) : (rowMajor w h).Nodup := by
  induction h with
  | zero => exact List.nodup_nil
  | succ n ih =>
    rw [rowMajor_succ]
    refine List.Nodup.append ih ?_ ?_
    · refine List.Nodup.map ?_ (List.nodup_range w)
      intro x1 x2 h12
      simpa using h12
    · intro p hp hp2
      rw [List.mem_map] at hp2
      obtain ⟨x, _, rfl⟩ := hp2
      have := (rowMajor_mem w n (x, n)).mp hp
      omega

/-- C5 (store traversal modelled from the spec): for a valid handle to a
`w × h` image, the callback argument list has exactly `w * h` entries, its
coordinate projection is precisely the row-major enumeration of the grid
(each pixel exactly once, no repeats), arguments are ordered `(r,g,b,a,x,y)`
with 0-based in-range coordinates and the channels of the visited pixel, and
channels stay in `[0,255]` whenever the buffer's do. -/
theorem traverse_image_row_major (store : ℕ → Option Image) (handle : ℕ)
    (img : Image) (hstore : store handle = some img)
    (hpx : ∀ p ∈ img.pixels,
      p.1 ≤ 255 ∧ p.2.1 ≤ 255 ∧ p.2.2.1 ≤ 255 ∧ p.2.2.2 ≤ 255) :
    ∃ calls, traverse_image store handle = some calls ∧
      calls.length = img.width * img.height ∧
      calls.map (fun t => (t.2.2.2.2.1, t.2.2.2.2.2)) =
        rowMajor img.width img.height ∧
      (calls.map (fun t => (t.2.2.2.2.1, t.2.2.2.2.2))).Nodup ∧
      (∀ t ∈ calls, t.2.2.2.2.1 < img.width ∧ t.2.2.2.2.2 < img.height ∧
        (t.1, t.2.1, t.2.2.1, t.2.2.2.1) =
          img.pixels.getD (t.2.2.2.2.2 * img.width + t.2.2.2.2.1) (0, 0, 0, 0) ∧
        t.1 ≤ 255 ∧ t.2.1 ≤ 255 ∧ t.2.2.1 ≤ 255 ∧ t.2.2.2.1 ≤ 255) := by
  have hgd : ∀ n : ℕ, (img.pixels.getD n (0, 0, 0, 0)).1 ≤ 255 ∧
      (img.pixels.getD n (0, 0, 0, 0)).2.1 ≤ 255 ∧
      (img.pixels.getD n (0, 0, 0, 0)).2.2.1 ≤ 255 ∧
      (img.pixels.getD n (0, 0, 0, 0)).2.2.2 ≤ 255 := by
    intro n
    by_cases hn : n < img.pixels.length
    · have hmem : img.pixels.getD n (0, 0, 0, 0) ∈ img.pixels := by
        rw [List.getD_eq_getElem _ _ hn]
        exact List.getElem_mem hn
      exact hpx _ hmem
    · push_neg at hn
      rw [List.getD_eq_default _ _ hn]
      norm_num
  have hcoords : (traverse_calls img).map (fun t => (t.2.2.2.2.1, t.2.2.2.2.2)) =
      rowMajor img.width img.height := by
    rw [traverse_calls, List.map_map]
    have hid : ((fun t : ℕ × ℕ × ℕ × ℕ × ℕ × ℕ => (t.2.2.2.2.1, t.2.2.2.2.2)) ∘
        fun p : ℕ × ℕ =>
          ((img.pixels.getD (p.2 * img.width + p.1) (0, 0, 0, 0)).1,
           (img.pixels.getD (p.2 * img.width + p.1) (0, 0, 0, 0)).2.1,
           (img.pixels.getD (p.2 * img.width + p.1) (0, 0, 0, 0)).2.2.1,
           (img.pixels.getD (p.2 * img.width + p.1) (0, 0, 0, 0)).2.2.2,
           p.1, p.2)) = id := by
      funext p
      simp
    rw [hid, List.map_id]
  refine ⟨traverse_calls img, by rw [traverse_image, hstore]; rfl, ?_, hcoords, ?_, ?_⟩
  · rw [traverse_calls, List.length_map, rowMajor_length]
  · rw [hcoords]
    exact rowMajor_nodup _ _
  · intro t ht
    rw [traverse_calls, List.mem_map] at ht
    obtain ⟨p, hp, rfl⟩ := ht
    rw [rowMajor_mem] at hp
    exact ⟨hp.1, hp.2, rfl, (hgd _).1, (hgd _).2.1, (hgd _).2.2.1, (hgd _).2.2.2⟩

/-- Witness for C5: a concrete store holding one 2-by-2 image at handle 7. -/
theorem traverse_image_row_major_witness :
    ∃ calls,
      traverse_image
        (fun n => if n = 7 then
            some (Image.mk 2 2 [(1,2,3,4), (5,6,7,8), (9,10,11,12), (13,14,15,16)])
          else none) 7 = some calls ∧
      calls.length =
        (Image.mk 2 2 [(1,2,3,4), (5,6,7,8), (9,10,11,12), (13,14,15,16)]).width *
        (Image.mk 2 2 [(1,2,3,4), (5,6,7,8), (9,10,11,12), (13,14,15,16)]).height ∧
      calls.map (fun t => (t.2.2.2.2.1, t.2.2.2.2.2)) =
        rowMajor
          (Image.mk 2 2 [(1,2,3,4), (5,6,7,8), (9,10,11,12), (13,14,15,16)]).width
          (Image.mk 2 2 [(1,2,3,4), (5,6,7,8), (9,10,11,12), (13,14,15,16)]).height ∧
      (calls.map (fun t => (t.2.2.2.2.1, t.2.2.2.2.2))).Nodup ∧
      (∀ t ∈ calls,
        t.2.2.2.2.1 <
          (Image.mk 2 2 [(1,2,3,4), (5,6,7,8), (9,10,11,12), (13,14,15,16)]).width ∧
        t.2.2.2.2.2 <
          (Image.mk 2 2 [(1,2,3,4), (5,6,7,8), (9,10,11,12), (13,14,15,16)]).height ∧
        (t.1, t.2.1, t.2.2.1, t.2.2.2.1) =
          (Image.mk 2 2 [(1,2,3,4), (5,6,7,8), (9,10,11,12), (13,14,15,16)]).pixels.getD
            (t.2.2.2.2.2 *
              (Image.mk 2 2 [(1,2,3,4), (5,6,7,8), (9,10,11,12), (13,14,15,16)]).width +
              t.2.2.2.2.1) (0, 0, 0, 0) ∧
        t.1 ≤ 255 ∧ t.2.1 ≤ 255 ∧ t.2.2.1 ≤ 255 ∧ t.2.2.2.1 ≤ 255) :=
  traverse_image_row_major _ 7 _ rfl (by decide)

/-- Embedding of `find_all` (OptionsDialog.cpp lines 50-63) over a list with
positions as indices: binary search for the partition point. `n2` and `mid`
of the source are inlined (`n2 = n / 2`, `mid = first + n2`); `dflt` is an
out-of-range placeholder for `getD`, never consulted when `first + n` is
within the list. -/
def find_all_from {α : Type} (f : α → Bool) (l : List α) (dflt : α)
    (first n : ℕ) : ℕ :=
  if n = 0 then first
  else if f (l.getD (first + n / 2) dflt) = false then
    find_all_from f l dflt (first + n / 2 + 1) (n - (n / 2 + 1))
  else
    find_all_from f l dflt first (n / 2)
termination_by n
decreasing_by
  · omega
  · omega

/-- `find_all` over the whole container, as called by
`ShortcutListModel::add_new_item` with `begin()`/`end()`. -/
def find_all {α : Type} (f : α → Bool) (l : List α) (dflt : α) : ℕ :=
  find_all_from f l dflt 0 l.length

lemma find_all_from_eq {α : Type} (f : α → Bool) (l : List α) (dflt : α) :
    ∀ n first y : ℕ, first ≤ y → y ≤ first + n → first + n ≤ l.length →
      (∀ i, first ≤ i → i < y → f (l.getD i dflt) = false) →
      (∀ i, y ≤ i → i < first + n → f (l.getD i dflt) = true) →
      find_all_from f l dflt first n = y := by
  intro n
  induction n using Nat.strong_induction_on with
  | _ n ih =>
    intro first y h1 h2 h3 hf ht
    rw [find_all_from]
    by_cases hn : n = 0
    · rw [if_pos hn]
      omega
    · rw [if_neg hn]
      by_cases hmid : f (l.getD (first + n / 2) dflt) = false
      · rw [if_pos hmid]
        have hmidy : first + n / 2 < y := by
          by_contra hcon
          push_neg at hcon
          have := ht (first + n / 2) hcon (by omega)
          rw [this] at hmid
          cases hmid
        exact ih (n - (n / 2 + 1)) (by omega) (first + n / 2 + 1) y (by omega)
          (by omega) (by omega) (fun i hi1 hi2 => hf i (by omega) hi2)
          (fun i hi1 hi2 => ht i hi1 (by omega))
      · rw [if_neg hmid]
        have hmidt : f (l.getD (first + n / 2) dflt) = true := by
          cases hb : f (l.getD (first + n / 2) dflt)
          · exact absurd hb hmid
          · rfl
        have hymid : y ≤ first + n / 2 := by
          by_contra hcon
          push_neg at hcon
          have := hf (first + n / 2) (by omega) hcon
          rw [this] at hmidt
          cases hmidt
        exact ih (n / 2) (by omega) first y h1 (by omega) (by omega) hf
          (fun i hi1 hi2 => ht i hi1 (by omega))

lemma insertIdx_eq_take_cons_drop {α : Type} (t : α) :
    ∀ (p : ℕ) (l : List α), p ≤ l.length →
      l.insertIdx p t = l.take p ++ t :: l.drop p := by
  intro p
  induction p with
  | zero =>
    intro l _
    simp
  | succ n ih =>
    intro l hl
    cases l with
    | nil => simp at hl
    | cons a rest =>
      rw [List.insertIdx_succ_cons, ih rest (by simpa using hl)]
      simp

lemma pairwise_insertIdx {α : Type} (R : α → α → Prop) (l : List α) (t : α)
    (p : ℕ) (hp : p ≤ l.length) (hl : l.Pairwise R)
    (hbefore : ∀ x ∈ l.take p, R x t) (hafter : ∀ x ∈ l.drop p, R t x) :
    (l.insertIdx p t).Pairwise R := by
  rw [insertIdx_eq_take_cons_drop t p l hp, List.pairwise_append]
  have horig : (l.take p ++ l.drop p).Pairwise R := by
    rw [List.take_append_drop]
    exact hl
  rw [List.pairwise_append] at horig
  obtain ⟨hto, hdo, hcross⟩ := horig
  refine ⟨hto, ?_, ?_⟩
  · rw [List.pairwise_cons]
    exact ⟨hafter, hdo⟩
  · intro x hx y hy
    rcases List.mem_cons.mp hy with rfl | hy2
    · exact hbefore x hx
    · exact hcross x hx y hy2

lemma mem_take_getD {α : Type} (l : List α) (d : α) (p : ℕ) (x : α) :
    x ∈ l.take p → ∃ i, i < p ∧ i < l.length ∧ x = l.getD i d := by
  intro hx
  rw [List.mem_iff_getElem] at hx
  obtain ⟨i, hi, hxi⟩ := hx
  have hlen : i < min p l.length := by simpa using hi
  refine ⟨i, by omega, by omega, ?_⟩
  rw [List.getD_eq_getElem _ _ (by omega), ← hxi, List.getElem_take]

lemma mem_drop_getD {α : Type} (l : List α) (d : α) (p : ℕ) (x : α) :
    x ∈ l.drop p → ∃ i, p ≤ i ∧ i < l.length ∧ x = l.getD i d := by
  intro hx
  rw [List.mem_iff_getElem] at hx
  obtain ⟨i, hi, hxi⟩ := hx
  have hlen : i < l.length - p := by simpa using hi
  refine ⟨p + i, by omega, by omega, ?_⟩
  rw [List.getD_eq_getElem _ _ (by omega), ← hxi, List.getElem_drop]

/-- Shortcut description as returned by `get_shortcut_info`; only the display
name participates in the ordering. -/
structure ShortcutInfo where
  display_name : String

/-- An entry of the shortcut list model (`ShortcutTriple`). `QKeySequence` is
modelled by its string form. -/
structure ShortcutTriple where
  command : String
  display_name : String
  sequence : String

/-- Embedding of `ShortcutListModel::sequence_already_exists`
(OptionsDialog.cpp lines 86-91). -/
def sequence_already_exists (items : List ShortcutTriple) (seq : String) : Bool :=
  items.any fun i => i.sequence == seq

/-- Embedding of `ShortcutListModel::add_new_item` (OptionsDialog.cpp lines
65-84) as its effect on the item list. The source passes `command` to
`sequence_already_exists` (through an implicit `QKeySequence` conversion,
modelled as the string itself); `get_shortcut_info` lives outside the sources
here, so its result is the parameter `info` (`none` when the lookup fails);
on success the new triple is inserted at the `find_all` position of the
predicate `info->display_name < a.display_name`. -/
def add_new_item (items : List ShortcutTriple) (info : Option ShortcutInfo)
    (command sequence : String) : List ShortcutTriple :=
  if sequence_already_exists items command then items
  else
    match info with
    | none => items
    | some inf =>
      items.insertIdx
        (find_all (fun a => decide (inf.display_name < a.display_name)) items
          (ShortcutTriple.mk "" "" ""))
        (ShortcutTriple.mk command inf.display_name sequence)

lemma shortcut_partition_point (name : String) :
    ∀ items : List ShortcutTriple,
      items.Pairwise (fun u v => u.display_name ≤ v.display_name) →
      ∃ p, p ≤ items.length ∧
        (∀ i, i < p →
          (items.getD i (ShortcutTriple.mk "" "" "")).display_name ≤ name) ∧
        (∀ i, p ≤ i → i < items.length →
          name < (items.getD i (ShortcutTriple.mk "" "" "")).display_name) := by
  intro items
  induction items with
  | nil =>
    intro _
    exact ⟨0, le_rfl, fun i hi => absurd hi (Nat.not_lt_zero i),
      fun i _ hi => by simp at hi⟩
  | cons a rest ih =>
    intro hsort
    rw [List.pairwise_cons] at hsort
    obtain ⟨ha, hrest⟩ := hsort
    by_cases hlt : name < a.display_name
    · refine ⟨0, Nat.zero_le _, fun i hi => absurd hi (Nat.not_lt_zero i), ?_⟩
      intro i _ hi
      cases i with
      | zero => simpa using hlt
      | succ j =>
        rw [List.getD_cons_succ]
        have hjlen : j < rest.length := by simpa using hi
        have hmem : rest.getD j (ShortcutTriple.mk "" "" "") ∈ rest := by
          rw [List.getD_eq_getElem _ _ hjlen]
          exact List.getElem_mem hjlen
        exact lt_of_lt_of_le hlt (ha _ hmem)
    · obtain ⟨p, hp1, hp2, hp3⟩ := ih hrest
      refine ⟨p + 1, by simpa using Nat.succ_le_succ hp1, ?_, ?_⟩
      · intro i hi
        cases i with
        | zero => simpa using not_lt.mp hlt
        | succ j =>
          rw [List.getD_cons_succ]
          exact hp2 j (by omega)
      · intro i h1 h2
        cases i with
        | zero => omega
        | succ j =>
          rw [List.getD_cons_succ]
          exact hp3 j (by omega) (by simpa using h2)

/-- C10: `find_all` returns the partition point whenever the predicate is
false strictly below `y` and true from `y` on (returning `first + n`, the
range's end, when nothing satisfies it); consequently
`ShortcutListModel::add_new_item` inserts a new shortcut exactly at the first
position whose display name is greater than the new item's, keeping the list
sorted. -/
theorem find_all_partition_and_sorted_insert :
    (∀ (α : Type) (f : α → Bool) (l : List α) (dflt : α) (first n y : ℕ),
      first ≤ y → y ≤ first + n → first + n ≤ l.length →
      (∀ i, first ≤ i → i < y → f (l.getD i dflt) = false) →
      (∀ i, y ≤ i → i < first + n → f (l.getD i dflt) = true) →
      find_all_from f l dflt first n = y) ∧
    (∀ (items : List ShortcutTriple) (inf : ShortcutInfo)
        (command sequence : String),
      items.Pairwise (fun u v => u.display_name ≤ v.display_name) →
      sequence_already_exists items command = false →
      ∃ p, p ≤ items.length ∧
        add_new_item items (some inf) command sequence =
          items.insertIdx p (ShortcutTriple.mk command inf.display_name sequence) ∧
        (∀ i, i < p →
          (items.getD i (ShortcutTriple.mk "" "" "")).display_name ≤
            inf.display_name) ∧
        (p < items.length →
          inf.display_name <
            (items.getD p (ShortcutTriple.mk "" "" "")).display_name) ∧
        (add_new_item items (some inf) command sequence).Pairwise
          (fun u v => u.display_name ≤ v.display_name)) := by
  constructor
  · intro α f l dflt first n y h1 h2 h3 hf ht
    exact find_all_from_eq f l dflt n first y h1 h2 h3 hf ht
  · intro items inf command sequence hsort hseq
    obtain ⟨p, hp1, hp2, hp3⟩ := shortcut_partition_point inf.display_name items hsort
    have hfa : find_all (fun a => decide (inf.display_name < a.display_name)) items
        (ShortcutTriple.mk "" "" "") = p := by
      rw [find_all]
      exact find_all_from_eq _ _ _ items.length 0 p (Nat.zero_le _) (by omega)
        (by omega) (fun i _ hi => decide_eq_false (not_lt.mpr (hp2 i hi)))
        (fun i hi1 hi2 => decide_eq_true (hp3 i hi1 (by omega)))
    have hadd : add_new_item items (some inf) command sequence =
        items.insertIdx p (ShortcutTriple.mk command inf.display_name sequence) := by
      rw [add_new_item, hseq, hfa]
      rfl
    have hpair : (items.insertIdx p
        (ShortcutTriple.mk command inf.display_name sequence)).Pairwise
        (fun u v => u.display_name ≤ v.display_name) := by
      refine pairwise_insertIdx _ items _ p hp1 hsort ?_ ?_
      · intro x hx
        obtain ⟨i, hip, hil, rfl⟩ := mem_take_getD items (ShortcutTriple.mk "" "" "") p x hx
        exact hp2 i hip
      · intro x hx
        obtain ⟨i, hpi, hil, rfl⟩ := mem_drop_getD items (ShortcutTriple.mk "" "" "") p x hx
        exact (hp3 i hpi hil).le
    exact ⟨p, hp1, hadd, hp2, fun hplen => hp3 p le_rfl hplen, hadd ▸ hpair⟩

/-- Witness for C10: the partition-point conjunct at `[1,2,3,4]` with the
predicate `3 ≤ a` (partition point 2), and the insertion conjunct at a
two-element sorted shortcut list. -/
theorem find_all_partition_and_sorted_insert_witness :
    find_all_from (fun a => decide (3 ≤ a)) [1, 2, 3, 4] 0 0 4 = 2 ∧
    (∃ p, p ≤ ([ShortcutTriple.mk "cmdA" "Alpha" "seqA",
        ShortcutTriple.mk "cmdC" "Gamma" "seqC"] : List ShortcutTriple).length ∧
      add_new_item [ShortcutTriple.mk "cmdA" "Alpha" "seqA",
          ShortcutTriple.mk "cmdC" "Gamma" "seqC"]
          (some (ShortcutInfo.mk "Beta")) "cmdB" "seqB" =
        ([ShortcutTriple.mk "cmdA" "Alpha" "seqA",
          ShortcutTriple.mk "cmdC" "Gamma" "seqC"] : List ShortcutTriple).insertIdx p
          (ShortcutTriple.mk "cmdB" "Beta" "seqB") ∧
      (∀ i, i < p →
        (([ShortcutTriple.mk "cmdA" "Alpha" "seqA",
          ShortcutTriple.mk "cmdC" "Gamma" "seqC"] : List ShortcutTriple).getD i
            (ShortcutTriple.mk "" "" "")).display_name ≤ "Beta") ∧
      (p < ([ShortcutTriple.mk "cmdA" "Alpha" "seqA",
          ShortcutTriple.mk "cmdC" "Gamma" "seqC"] : List ShortcutTriple).length →
        "Beta" <
          (([ShortcutTriple.mk "cmdA" "Alpha" "seqA",
            ShortcutTriple.mk "cmdC" "Gamma" "seqC"] : List ShortcutTriple).getD p
              (ShortcutTriple.mk "" "" "")).display_name) ∧
      (add_new_item [ShortcutTriple.mk "cmdA" "Alpha" "seqA",
          ShortcutTriple.mk "cmdC" "Gamma" "seqC"]
          (some (ShortcutInfo.mk "Beta")) "cmdB" "seqB").Pairwise
        (fun u v => u.display_name ≤ v.display_name)) :=
  ⟨find_all_partition_and_sorted_insert.1 ℕ (fun a => decide (3 ≤ a)) [1, 2, 3, 4]
      0 0 4 2 (by omega) (by omega) (by decide)
      (by intro i h1 h2; interval_cases i <;> rfl)
      (by intro i h1 h2; interval_cases i <;> rfl),
    find_all_partition_and_sorted_insert.2
      [ShortcutTriple.mk "cmdA" "Alpha" "seqA",
        ShortcutTriple.mk "cmdC" "Gamma" "seqC"]
      (ShortcutInfo.mk "Beta") "cmdB" "seqB"
      (by simp; decide) (by decide)⟩
